import Mathlib

/-
Verification of the core of the WRPF records dashboard (dash.py):
the dataset normalizer (load_data), the filter/search resolver
(render_filters, filtering core only; the widget/UI statements are not part
of the data semantics), and the best-record reducer (best_per_class_and_lift).

Modelling conventions:
- a pandas cell that may be NaN is an Option String (none = NaN);
- pd.to_numeric(errors="coerce") is modelled by an exact decimal parser
  returning a mantissa/scale pair (DecNum); unparseable strings give none,
  mirroring the NaN result (exponent forms, inf/nan words and surrounding
  whitespace are outside the modelled fragment; the dataset's class/weight
  tokens are plain decimals);
- sort_values with a single column uses the default quicksort, which pandas
  documents as not stable: it is modelled as a relation admitting every
  sorted permutation of the input; sort_values with a list of columns uses
  lexsort, which is stable, and is modelled as a stable list sort;
- a sort over a Weight column that mixes numbers with the post-fillna ""
  sentinel raises TypeError in pandas, so the reducer returns Option and
  yields none on such mixed collections.
-/

-- ## Character and string utilities (Python semantics)

/-- Whitespace set of Python str.split() / str.strip() (ASCII fragment). -/
def pySpace (c : Char) : Bool :=
  c = ' ' || c = '\t' || c = '\n' || c = '\r' || c = '\x0b' || c = '\x0c'

/-- Python str.strip(): drop whitespace from both ends. -/
def pyStrip (s : String) : String :=
  String.mk (((s.data.dropWhile pySpace).reverse.dropWhile pySpace).reverse)

/-- Lower-cased character list of a string (Python str.lower, ASCII fragment). -/
def lowerCP (s : String) : List Char := s.data.map Char.toLower

/-- One step of whitespace splitting, consumed by a right fold. -/
def splitWsF (c : Char) (acc : List (List Char)) : List (List Char) :=
  if pySpace c then [] :: acc
  else match acc with
    | [] => [[c]]
    | t :: rest => (c :: t) :: rest

/-- Python str.split() with no argument: split on whitespace runs,
    discarding empty pieces. -/
def splitWs (l : List Char) : List (List Char) :=
  (l.foldr splitWsF []).filter (fun t => t ≠ [])

-- ## Exact decimal numbers (model of the float values of pd.to_numeric)

/-- An exact decimal number man / 10^sc. -/
structure DecNum where
  man : Int
  sc : Nat
deriving DecidableEq

/-- 10^n as an integer. -/
def pw10 (n : Nat) : Int := Int.ofNat ((10 : Nat) ^ n)

theorem pw10_pos (n : Nat) : 0 < pw10 n :=
  Int.ofNat_pos.mpr (Nat.pos_pow_of_pos n (by omega))

/-- Numeric comparison of decimals by cross multiplication. -/
def dLe (a b : DecNum) : Bool := decide (a.man * pw10 b.sc ≤ b.man * pw10 a.sc)

/-- Strict numeric comparison of decimals. -/
def dLt (a b : DecNum) : Bool := decide (a.man * pw10 b.sc < b.man * pw10 a.sc)

/-- Numeric value of a digit character. -/
def digVal (c : Char) : Nat := c.toNat - 48

/-- Value of a digit list, most significant first. -/
def natOfDigits (ds : List Char) : Nat := ds.foldl (fun n c => 10 * n + digVal c) 0

/-- Decimal parser modelling pd.to_numeric(errors="coerce") on the fragment
    sign? digits? ('.' digits?)? with at least one digit present. -/
def parseNum (s : String) : Option DecNum :=
  let cs0 := s.data
  let sg : Int × List Char :=
    match cs0 with
    | '-' :: t => (-1, t)
    | '+' :: t => (1, t)
    | _ => (1, cs0)
  let ip := sg.2.takeWhile (fun c => c ≠ '.')
  let rest := sg.2.dropWhile (fun c => c ≠ '.')
  if ip.all Char.isDigit then
    match rest with
    | [] => if ip ≠ [] then some ⟨sg.1 * Int.ofNat (natOfDigits ip), 0⟩ else none
    | _ :: frac =>
      if frac.all Char.isDigit && (ip ≠ [] || frac ≠ []) then
        some ⟨sg.1 * Int.ofNat (natOfDigits ip * (10 : Nat) ^ frac.length + natOfDigits frac),
              frac.length⟩
      else none
  else none

-- ## Code-point lexicographic order on strings (Python / numpy comparison)

/-- Lexicographic strict order on code-point lists. -/
def nlLt : List Nat → List Nat → Bool
  | [], [] => false
  | [], _ :: _ => true
  | _ :: _, [] => false
  | a :: as, b :: bs => decide (a < b) || (decide (a = b) && nlLt as bs)

/-- Code points of a string. -/
def codePoints (s : String) : List Nat := s.data.map Char.toNat

/-- Python string comparison (code-point lexicographic). -/
def strLt (a b : String) : Bool := nlLt (codePoints a) (codePoints b)

/-- Non-strict Python string comparison. -/
def strLe (a b : String) : Bool := !(strLt b a)

theorem nlLt_irrefl (x : List Nat) : nlLt x x = false := by
  induction x with
  | nil => rfl
  | cons a as ih => simp [nlLt, ih]

theorem nlLt_asymm (x y : List Nat) (h : nlLt x y = true) : nlLt y x = false := by
  induction x generalizing y with
  | nil =>
    cases y with
    | nil => simp [nlLt] at h
    | cons b bs => rfl
  | cons a as ih =>
    cases y with
    | nil => simp [nlLt] at h
    | cons b bs =>
      simp only [nlLt, Bool.or_eq_true, Bool.and_eq_true, decide_eq_true_eq] at h ⊢
      rcases h with h | ⟨hab, h⟩
      · simp [Nat.not_lt.mpr (Nat.le_of_lt h), Nat.ne_of_gt h]
      · subst hab
        simp [Nat.lt_irrefl, ih _ h]

theorem nlLt_eq_of_not (x y : List Nat) (h1 : nlLt x y = false) (h2 : nlLt y x = false) :
    x = y := by
  induction x generalizing y with
  | nil =>
    cases y with
    | nil => rfl
    | cons b bs => simp [nlLt] at h1
  | cons a as ih =>
    cases y with
    | nil => simp [nlLt] at h2
    | cons b bs =>
      simp only [nlLt, Bool.or_eq_false_iff, Bool.and_eq_false_iff, decide_eq_false_iff_not,
        decide_eq_true_eq] at h1 h2
      rcases Nat.lt_trichotomy a b with hlt | heq | hgt
      · exact absurd hlt h1.1
      · subst heq
        rcases h1.2 with h1' | h1'
        · exact absurd rfl h1'
        · rcases h2.2 with h2' | h2'
          · exact absurd rfl h2'
          · rw [ih bs h1' h2']
      · exact absurd hgt h2.1

theorem nlLt_trans (x y z : List Nat) (h1 : nlLt x y = true) (h2 : nlLt y z = true) :
    nlLt x z = true := by
  induction x generalizing y z with
  | nil =>
    cases z with
    | nil =>
      cases y with
      | nil => simp [nlLt] at h1
      | cons b bs => simp [nlLt] at h2
    | cons c cs => rfl
  | cons a as ih =>
    cases y with
    | nil => simp [nlLt] at h1
    | cons b bs =>
      cases z with
      | nil => simp [nlLt] at h2
      | cons c cs =>
        simp only [nlLt, Bool.or_eq_true, Bool.and_eq_true, decide_eq_true_eq] at h1 h2 ⊢
        rcases h1 with h1 | ⟨hab, h1⟩
        · rcases h2 with h2 | ⟨hbc, h2⟩
          · exact Or.inl (Nat.lt_trans h1 h2)
          · subst hbc; exact Or.inl h1
        · subst hab
          rcases h2 with h2 | ⟨hbc, h2⟩
          · exact Or.inl h2
          · subst hbc; exact Or.inr ⟨rfl, ih bs cs h1 h2⟩

-- ## Order facts for decimal comparisons

theorem dLe_total (a b : DecNum) : dLe a b = true ∨ dLe b a = true := by
  simp only [dLe, decide_eq_true_eq]
  exact Int.le_total _ _

theorem dLt_eq_not_dLe (a b : DecNum) : dLt a b = !(dLe b a) := by
  simp only [dLt, dLe]
  by_cases h : a.man * pw10 b.sc < b.man * pw10 a.sc
  · simp [h, Int.not_le.mpr h]
  · simp [h, Int.not_lt.mp h]

theorem dLe_trans (a b c : DecNum) (h1 : dLe a b = true) (h2 : dLe b c = true) :
    dLe a c = true := by
  simp only [dLe, decide_eq_true_eq] at h1 h2 ⊢
  have hb : (0 : Int) < pw10 b.sc := pw10_pos b.sc
  have g1 : a.man * pw10 b.sc * pw10 c.sc ≤ b.man * pw10 a.sc * pw10 c.sc :=
    Int.mul_le_mul_of_nonneg_right h1 (Int.le_of_lt (pw10_pos c.sc))
  have g2 : b.man * pw10 c.sc * pw10 a.sc ≤ c.man * pw10 b.sc * pw10 a.sc :=
    Int.mul_le_mul_of_nonneg_right h2 (Int.le_of_lt (pw10_pos a.sc))
  have g3 : a.man * pw10 c.sc * pw10 b.sc ≤ c.man * pw10 a.sc * pw10 b.sc := by
    calc a.man * pw10 c.sc * pw10 b.sc = a.man * pw10 b.sc * pw10 c.sc := by ring
    _ ≤ b.man * pw10 a.sc * pw10 c.sc := g1
    _ = b.man * pw10 c.sc * pw10 a.sc := by ring
    _ ≤ c.man * pw10 b.sc * pw10 a.sc := g2
    _ = c.man * pw10 a.sc * pw10 b.sc := by ring
  exact (mul_le_mul_right hb).mp g3

theorem dLe_asymm_eq (a b : DecNum) (h1 : dLe a b = true) (h2 : dLe b a = true) :
    a.man * pw10 b.sc = b.man * pw10 a.sc := by
  simp only [dLe, decide_eq_true_eq] at h1 h2
  exact Int.le_antisymm h1 h2

theorem dLt_congr_left (a b c : DecNum) (h : a.man * pw10 b.sc = b.man * pw10 a.sc) :
    dLt a c = dLt b c := by
  simp only [dLt, decide_eq_decide]
  have ha : (0 : Int) < pw10 a.sc := pw10_pos a.sc
  have hb : (0 : Int) < pw10 b.sc := pw10_pos b.sc
  constructor
  · intro hlt
    have g : a.man * pw10 c.sc * pw10 b.sc < c.man * pw10 a.sc * pw10 b.sc :=
      (mul_lt_mul_right hb).mpr hlt
    have g2 : b.man * pw10 c.sc * pw10 a.sc < c.man * pw10 b.sc * pw10 a.sc := by
      calc b.man * pw10 c.sc * pw10 a.sc = b.man * pw10 a.sc * pw10 c.sc := by ring
      _ = a.man * pw10 b.sc * pw10 c.sc := by rw [h]
      _ = a.man * pw10 c.sc * pw10 b.sc := by ring
      _ < c.man * pw10 a.sc * pw10 b.sc := g
      _ = c.man * pw10 b.sc * pw10 a.sc := by ring
    exact (mul_lt_mul_right ha).mp g2
  · intro hlt
    have g : b.man * pw10 c.sc * pw10 a.sc < c.man * pw10 b.sc * pw10 a.sc :=
      (mul_lt_mul_right ha).mpr hlt
    have g2 : a.man * pw10 c.sc * pw10 b.sc < c.man * pw10 a.sc * pw10 b.sc := by
      calc a.man * pw10 c.sc * pw10 b.sc = a.man * pw10 b.sc * pw10 c.sc := by ring
      _ = b.man * pw10 a.sc * pw10 c.sc := by rw [h]
      _ = b.man * pw10 c.sc * pw10 a.sc := by ring
      _ < c.man * pw10 b.sc * pw10 a.sc := g
      _ = c.man * pw10 a.sc * pw10 b.sc := by ring
    exact (mul_lt_mul_right hb).mp g2

theorem dLt_congr_right (a b c : DecNum) (h : a.man * pw10 b.sc = b.man * pw10 a.sc) :
    dLt c a = dLt c b := by
  simp only [dLt, decide_eq_decide]
  have ha : (0 : Int) < pw10 a.sc := pw10_pos a.sc
  have hb : (0 : Int) < pw10 b.sc := pw10_pos b.sc
  constructor
  · intro hlt
    have g : c.man * pw10 a.sc * pw10 b.sc < a.man * pw10 c.sc * pw10 b.sc :=
      (mul_lt_mul_right hb).mpr hlt
    have g2 : c.man * pw10 b.sc * pw10 a.sc < b.man * pw10 c.sc * pw10 a.sc := by
      calc c.man * pw10 b.sc * pw10 a.sc = c.man * pw10 a.sc * pw10 b.sc := by ring
      _ < a.man * pw10 c.sc * pw10 b.sc := g
      _ = a.man * pw10 b.sc * pw10 c.sc := by ring
      _ = b.man * pw10 a.sc * pw10 c.sc := by rw [h]
      _ = b.man * pw10 c.sc * pw10 a.sc := by ring
    exact (mul_lt_mul_right ha).mp g2
  · intro hlt
    have g : c.man * pw10 b.sc * pw10 a.sc < b.man * pw10 c.sc * pw10 a.sc :=
      (mul_lt_mul_right ha).mpr hlt
    have g2 : c.man * pw10 a.sc * pw10 b.sc < a.man * pw10 c.sc * pw10 b.sc := by
      calc c.man * pw10 a.sc * pw10 b.sc = c.man * pw10 b.sc * pw10 a.sc := by ring
      _ < b.man * pw10 c.sc * pw10 a.sc := g
      _ = b.man * pw10 a.sc * pw10 c.sc := by ring
      _ = a.man * pw10 b.sc * pw10 c.sc := by rw [h]
      _ = a.man * pw10 c.sc * pw10 b.sc := by ring
    exact (mul_lt_mul_right hb).mp g2

-- ## Generic stable insertion sort (list model of pandas sort_values)

/-- Stable insertion of an element into a sorted list: the new element goes
    before the first entry it compares le to (ties keep input order because
    the inserted element is the input-earlier one). -/
def insBy {α : Type} (le : α → α → Bool) (a : α) : List α → List α
  | [] => [a]
  | b :: l => if le a b then a :: b :: l else b :: insBy le a l

/-- Stable insertion sort. -/
def sortBy {α : Type} (le : α → α → Bool) : List α → List α
  | [] => []
  | a :: l => insBy le a (sortBy le l)

theorem perm_insBy {α : Type} (le : α → α → Bool) (a : α) (l : List α) :
    (insBy le a l).Perm (a :: l) := by
  induction l with
  | nil => exact List.Perm.refl _
  | cons b l ih =>
    by_cases h : le a b = true
    · simp [insBy, h]
    · simp only [insBy, h, if_neg]
      exact List.Perm.trans (List.Perm.cons b ih) (List.Perm.swap a b l)

theorem perm_sortBy {α : Type} (le : α → α → Bool) (l : List α) :
    (sortBy le l).Perm l := by
  induction l with
  | nil => exact List.Perm.refl _
  | cons a l ih =>
    exact List.Perm.trans (perm_insBy le a (sortBy le l)) (List.Perm.cons a ih)

theorem mem_sortBy {α : Type} (le : α → α → Bool) (l : List α) (x : α) :
    x ∈ sortBy le l ↔ x ∈ l :=
  (perm_sortBy le l).mem_iff

theorem mem_insBy {α : Type} (le : α → α → Bool) (a : α) (l : List α) (x : α) :
    x ∈ insBy le a l ↔ x = a ∨ x ∈ l := by
  rw [(perm_insBy le a l).mem_iff]
  simp

theorem pairwise_le_insBy {α : Type} (le : α → α → Bool)
    (ht : ∀ a b, le a b = true ∨ le b a = true)
    (htr : ∀ a b c, le a b = true → le b c = true → le a c = true)
    (a : α) (l : List α) (hl : l.Pairwise (fun x y => le x y = true)) :
    (insBy le a l).Pairwise (fun x y => le x y = true) := by
  induction l with
  | nil => simp [insBy]
  | cons b l ih =>
    rcases List.pairwise_cons.mp hl with ⟨hb, hl'⟩
    by_cases h : le a b = true
    · simp only [insBy, h, if_pos]
      refine List.pairwise_cons.mpr ⟨?_, hl⟩
      intro x hx
      rcases List.mem_cons.mp hx with rfl | hx'
      · exact h
      · exact htr a b x h (hb x hx')
    · simp only [insBy, h, if_neg]
      refine List.pairwise_cons.mpr ⟨?_, ih hl'⟩
      intro x hx
      rcases (mem_insBy le a l x).mp hx with heq | hx'
      · rw [heq]
        rcases ht a b with h' | h'
        · exact absurd h' h
        · exact h'
      · exact hb x hx'

theorem sorted_sortBy {α : Type} (le : α → α → Bool)
    (ht : ∀ a b, le a b = true ∨ le b a = true)
    (htr : ∀ a b c, le a b = true → le b c = true → le a c = true)
    (l : List α) : (sortBy le l).Pairwise (fun x y => le x y = true) := by
  induction l with
  | nil => exact List.Pairwise.nil
  | cons a l ih => exact pairwise_le_insBy le ht htr a (sortBy le l) ih

theorem insBy_eq_cons {α : Type} (le : α → α → Bool) (a : α) (l : List α)
    (h : ∀ x ∈ l, le a x = true) : insBy le a l = a :: l := by
  cases l with
  | nil => rfl
  | cons b l => simp [insBy, h b (List.mem_cons_self b l)]

theorem filter_insBy {α : Type} (le : α → α → Bool) (p : α → Bool)
    (htr : ∀ a b c, le a b = true → le b c = true → le a c = true)
    (a : α) (l : List α) (hl : l.Pairwise (fun x y => le x y = true)) :
    (insBy le a l).filter p =
      if p a then insBy le a (l.filter p) else l.filter p := by
  induction l with
  | nil =>
    cases hpa : p a <;> simp [insBy, List.filter_cons, hpa]
  | cons b l ih =>
    rcases List.pairwise_cons.mp hl with ⟨hb, hl'⟩
    by_cases h : le a b = true
    · have hall : ∀ x ∈ (b :: l).filter p, le a x = true := by
        intro x hx
        rcases List.mem_filter.mp hx with ⟨hx', _⟩
        rcases List.mem_cons.mp hx' with heq | hx''
        · rw [heq]; exact h
        · exact htr a b x h (hb x hx'')
      rw [show insBy le a (b :: l) = a :: b :: l by simp [insBy, h],
        List.filter_cons, insBy_eq_cons le a ((b :: l).filter p) hall]
    · rw [show insBy le a (b :: l) = b :: insBy le a l by simp [insBy, h],
        List.filter_cons, List.filter_cons, ih hl']
      cases hpa : p a <;> cases hpb : p b <;> simp [insBy, h]

theorem filter_sortBy {α : Type} (le : α → α → Bool) (p : α → Bool)
    (ht : ∀ a b, le a b = true ∨ le b a = true)
    (htr : ∀ a b c, le a b = true → le b c = true → le a c = true)
    (l : List α) : (sortBy le l).filter p = sortBy le (l.filter p) := by
  induction l with
  | nil => rfl
  | cons a l ih =>
    have hs := sorted_sortBy le ht htr l
    rw [show sortBy le (a :: l) = insBy le a (sortBy le l) from rfl,
      filter_insBy le p htr a (sortBy le l) hs]
    cases hpa : p a
    · simpa [List.filter, hpa] using ih
    · simp only [List.filter, hpa, if_pos]
      rw [ih]
      rfl

theorem sortBy_insBy_absorb {α : Type} (le1 le2 : α → α → Bool)
    (ht2 : ∀ a b, le2 a b = true ∨ le2 b a = true)
    (a : α) (w : List α)
    (hw : ∀ x ∈ w, le2 x a = false ∨ (le2 a x = true ∧ le2 x a = true ∧ le1 a x = true)) :
    sortBy le2 (insBy le1 a w) = a :: sortBy le2 w := by
  have hle2 : ∀ x ∈ w, le2 a x = true := by
    intro x hx
    rcases hw x hx with h | ⟨h, _, _⟩
    · rcases ht2 a x with h' | h'
      · exact h'
      · rw [h'] at h; cases h
    · exact h
  induction w with
  | nil => rfl
  | cons y ys ih =>
    by_cases h1 : le1 a y = true
    · rw [show insBy le1 a (y :: ys) = a :: y :: ys by simp [insBy, h1]]
      rw [show sortBy le2 (a :: y :: ys) = insBy le2 a (sortBy le2 (y :: ys)) from rfl]
      refine insBy_eq_cons le2 a (sortBy le2 (y :: ys)) ?_
      intro x hx
      exact hle2 x ((mem_sortBy le2 (y :: ys) x).mp hx)
    · have hya : le2 y a = false := by
        rcases hw y (List.mem_cons_self y ys) with h | ⟨_, _, h⟩
        · exact h
        · exact absurd h h1
      rw [show insBy le1 a (y :: ys) = y :: insBy le1 a ys by simp [insBy, h1]]
      rw [show sortBy le2 (y :: insBy le1 a ys) = insBy le2 y (sortBy le2 (insBy le1 a ys))
        from rfl]
      rw [ih (fun x hx => hw x (List.mem_cons_of_mem y hx))
        (fun x hx => hle2 x (List.mem_cons_of_mem y hx))]
      rw [show insBy le2 y (a :: sortBy le2 ys) = a :: insBy le2 y (sortBy le2 ys) by
        simp [insBy, hya]]
      rfl

theorem sortBy_sortBy_of_pairwise {α : Type} (le1 le2 : α → α → Bool)
    (ht2 : ∀ a b, le2 a b = true ∨ le2 b a = true)
    (l : List α)
    (h : l.Pairwise (fun a x =>
      le2 x a = false ∨ (le2 a x = true ∧ le2 x a = true ∧ le1 a x = true))) :
    sortBy le2 (sortBy le1 l) = l := by
  induction l with
  | nil => rfl
  | cons a l ih =>
    rcases List.pairwise_cons.mp h with ⟨ha, hl⟩
    rw [show sortBy le1 (a :: l) = insBy le1 a (sortBy le1 l) from rfl]
    rw [sortBy_insBy_absorb le1 le2 ht2 a (sortBy le1 l)
      (fun x hx => ha x ((mem_sortBy le1 l x).mp hx))]
    rw [ih hl]

theorem pairwise_tie_insBy {α : Type} (le2 W : α → α → Bool)
    (ht2 : ∀ a b, le2 a b = true ∨ le2 b a = true)
    (htr2 : ∀ a b c, le2 a b = true → le2 b c = true → le2 a c = true)
    (a : α) (l : List α)
    (hl : l.Pairwise (fun x y => le2 x y = true ∧ (le2 y x = true → W x y = true)))
    (hW : ∀ x ∈ l, W a x = true) :
    (insBy le2 a l).Pairwise
      (fun x y => le2 x y = true ∧ (le2 y x = true → W x y = true)) := by
  induction l with
  | nil =>
    simp only [insBy]
    exact List.pairwise_singleton _ _
  | cons b l ih =>
    rcases List.pairwise_cons.mp hl with ⟨hb, hl'⟩
    by_cases h : le2 a b = true
    · simp only [insBy, h, if_pos]
      refine List.pairwise_cons.mpr ⟨?_, hl⟩
      intro x hx
      refine ⟨?_, fun _ => hW x hx⟩
      rcases List.mem_cons.mp hx with heq | hx'
      · rw [heq]; exact h
      · exact htr2 a b x h (hb x hx').1
    · simp only [insBy, h, if_neg]
      refine List.pairwise_cons.mpr
        ⟨?_, ih hl' (fun x hx => hW x (List.mem_cons_of_mem b hx))⟩
      intro x hx
      rcases (mem_insBy le2 a l x).mp hx with heq | hx'
      · rw [heq]
        refine ⟨?_, ?_⟩
        · rcases ht2 b a with h' | h'
          · exact h'
          · exact absurd h' h
        · intro hab
          exact absurd hab h
      · exact hb x hx'

theorem pairwise_tie_sortBy {α : Type} (le2 W : α → α → Bool)
    (ht2 : ∀ a b, le2 a b = true ∨ le2 b a = true)
    (htr2 : ∀ a b c, le2 a b = true → le2 b c = true → le2 a c = true)
    (l : List α) (hl : l.Pairwise (fun x y => W x y = true)) :
    (sortBy le2 l).Pairwise
      (fun x y => le2 x y = true ∧ (le2 y x = true → W x y = true)) := by
  induction l with
  | nil => exact List.Pairwise.nil
  | cons a l ih =>
    rcases List.pairwise_cons.mp hl with ⟨ha, hl'⟩
    exact pairwise_tie_insBy le2 W ht2 htr2 a (sortBy le2 l) (ih hl')
      (fun x hx => ha x ((mem_sortBy le2 l x).mp hx))

-- ## Keyed first-occurrence deduplication (pandas drop_duplicates keep=first)

/-- drop_duplicates over key k: keep the first occurrence of every key not
    already in seen. -/
def dedupBy {α κ : Type} [DecidableEq κ] (k : α → κ) : List α → List κ → List α
  | [], _ => []
  | r :: rs, seen =>
    if k r ∈ seen then dedupBy k rs seen else r :: dedupBy k rs (k r :: seen)

theorem dedupBy_sublist {α κ : Type} [DecidableEq κ] (k : α → κ) (l : List α)
    (seen : List κ) : (dedupBy k l seen).Sublist l := by
  induction l generalizing seen with
  | nil => exact List.Sublist.refl _
  | cons r rs ih =>
    by_cases h : k r ∈ seen
    · simp only [dedupBy, h, if_pos]
      exact List.Sublist.cons r (ih seen)
    · simp only [dedupBy, h, if_neg]
      exact List.Sublist.cons₂ r (ih (k r :: seen))

theorem mem_dedupBy {α κ : Type} [DecidableEq κ] (k : α → κ) (l : List α)
    (seen : List κ) (x : α) (hx : x ∈ dedupBy k l seen) : x ∈ l :=
  (dedupBy_sublist k l seen).mem hx

theorem not_mem_seen_dedupBy {α κ : Type} [DecidableEq κ] (k : α → κ) (l : List α)
    (seen : List κ) (x : α) (hx : x ∈ dedupBy k l seen) : k x ∉ seen := by
  induction l generalizing seen with
  | nil => cases hx
  | cons r rs ih =>
    by_cases h : k r ∈ seen
    · rw [dedupBy, if_pos h] at hx
      exact ih seen hx
    · rw [dedupBy, if_neg h] at hx
      rcases List.mem_cons.mp hx with heq | hx'
      · rw [heq]; exact h
      · intro hc
        exact ih (k r :: seen) hx' (List.mem_cons_of_mem (k r) hc)

theorem pairwise_dedupBy {α κ : Type} [DecidableEq κ] (k : α → κ) (l : List α)
    (seen : List κ) : (dedupBy k l seen).Pairwise (fun a b => k a ≠ k b) := by
  induction l generalizing seen with
  | nil => exact List.Pairwise.nil
  | cons r rs ih =>
    by_cases h : k r ∈ seen
    · rw [dedupBy, if_pos h]
      exact ih seen
    · rw [dedupBy, if_neg h]
      refine List.pairwise_cons.mpr ⟨?_, ih (k r :: seen)⟩
      intro x hx hc
      exact not_mem_seen_dedupBy k rs (k r :: seen) x hx (by rw [← hc]; exact List.mem_cons_self _ _)

theorem dedupBy_eq_self {α κ : Type} [DecidableEq κ] (k : α → κ) (l : List α)
    (seen : List κ) (hl : l.Pairwise (fun a b => k a ≠ k b))
    (hs : ∀ x ∈ l, k x ∉ seen) : dedupBy k l seen = l := by
  induction l generalizing seen with
  | nil => rfl
  | cons r rs ih =>
    rcases List.pairwise_cons.mp hl with ⟨hr, hl'⟩
    rw [dedupBy, if_neg (hs r (List.mem_cons_self r rs))]
    congr 1
    refine ih (k r :: seen) hl' ?_
    intro x hx hc
    rcases List.mem_cons.mp hc with heq | hc'
    · exact hr x hx heq.symm
    · exact hs x (List.mem_cons_of_mem r hx) hc'

theorem filter_dedupBy {α κ : Type} [DecidableEq κ] (k : α → κ) (l : List α)
    (seen : List κ) (c : κ) :
    (dedupBy k l seen).filter (fun x => decide (k x = c)) =
      if c ∈ seen then [] else (l.filter (fun x => decide (k x = c))).take 1 := by
  induction l generalizing seen with
  | nil =>
    rw [show dedupBy k ([] : List α) seen = [] from rfl]
    simp
  | cons r rs ih =>
    by_cases h : k r ∈ seen
    · rw [dedupBy, if_pos h, ih seen]
      by_cases hc : c ∈ seen
      · simp [hc]
      · have hrc : ¬ k r = c := fun heq => hc (heq ▸ h)
        simp [hc, List.filter_cons, hrc]
    · rw [dedupBy, if_neg h]
      by_cases hrc : k r = c
      · have hcs : c ∉ seen := fun hcc => h (by rw [hrc]; exact hcc)
        have hmem : c ∈ k r :: seen := by rw [hrc]; exact List.mem_cons_self _ _
        rw [List.filter_cons, ih (k r :: seen), if_pos hmem]
        simp [hcs, List.filter_cons, hrc]
      · have hcks : (c ∈ k r :: seen) ↔ (c ∈ seen) := by
          constructor
          · intro hcc
            rcases List.mem_cons.mp hcc with heq | hc'
            · exact absurd heq.symm hrc
            · exact hc'
          · exact List.mem_cons_of_mem _
        rw [List.filter_cons, ih (k r :: seen)]
        by_cases hc : c ∈ seen
        · simp [hc, hcks.mpr hc, hrc]
        · have hnc : c ∉ k r :: seen := fun hcc => hc (hcks.mp hcc)
          simp [hc, hnc, List.filter_cons, hrc]

-- ## Data model (columns of the records sheet used by the core)

/-- A raw CSV row; none models a NaN cell (pandas read_csv turns empty cells
    into NaN). Column names are already trimmed (df.columns.str.strip()).
    The Date column and the Record Type column are not consumed by any
    verified component and are omitted. -/
structure RawRow where
  fullName : Option String
  weight : Option String
  Class : Option String
  division : Option String
  lift : Option String
  sex : Option String
  equipment : Option String
  recordName : Option String
  location : Option String
deriving DecidableEq

/-- A normalized record produced by load_data, after the final df.fillna("").
    weight = none models the "" sentinel that fillna leaves in place of an
    unparseable (NaN-coerced) weight. -/
structure NRec where
  fullName : String
  weight : Option DecNum
  Class : String
  Division_raw : String
  Division_base : String
  Testing : String
  Lift : String
  Sex : String
  Equipment : String
  Record_Name : String
  Location : String
deriving DecidableEq

def emptyS : String := ""

def allS : String := "All"

def drugTested : String := "Drug Tested"

def untested : String := "Untested"

def dtSuffix : String := "DT"

/-- INVALID_WEIGHT_CLASSES of dash.py. -/
def INVALID_WEIGHT_CLASSES : List String := ["736", "737", "738", "739", "cell"]

/-- Python str(x) on a cell: NaN prints as the string nan
    (df["Class"].astype(str)). -/
def astypeStr : Option String → String
  | none => "nan"
  | some s => s

/-- Does the string end with the two-character drug-tested marker DT. -/
def endsDT (s : String) : Bool :=
  match s.data.reverse with
  | c1 :: c2 :: _ => decide (c1 = 'T') && decide (c2 = 'D')
  | _ => false

/-- str.replace(r"DT$", "", regex=True): remove one trailing DT. -/
def stripDT (s : String) : String :=
  if endsDT s then String.mk s.data.dropLast.dropLast else s

/-- LIFT_MAP of dash.py, applied by Series.replace (exact matches only,
    other values pass through). -/
def LIFT_MAP (s : String) : String :=
  if s = "S" then "Squat"
  else if s = "B" then "Bench"
  else if s = "D" then "Deadlift"
  else if s = "T" then "Total"
  else if s = "Total" then "Total"
  else s

-- ## Dataset Normalizer (load_data of dash.py)

/-- Per-row normalization. Mirrors load_data:
    rows with NaN Full Name or NaN Weight are dropped;
    Weight is pd.to_numeric(errors="coerce") (none = the coerced NaN, which
    the final fillna turns into the "" sentinel — the row is NOT dropped);
    Class is astype(str).str.strip() and rows whose class is in
    INVALID_WEIGHT_CLASSES are dropped;
    Division_raw / Division_base / Testing are derived from Division
    (a NaN Division propagates NaN, which fillna turns into "");
    Lift goes through LIFT_MAP; every remaining NaN becomes "". -/
def normRow (r : RawRow) : Option NRec :=
  match r.fullName, r.weight with
  | some fn, some w =>
    let cls := pyStrip (astypeStr r.Class)
    if INVALID_WEIGHT_CLASSES.contains cls then none
    else
      let draw := r.division.map pyStrip
      some
        { fullName := fn
          weight := parseNum w
          Class := cls
          Division_raw := draw.getD emptyS
          Division_base := (draw.map stripDT).getD emptyS
          Testing := (draw.map (fun d => if endsDT d then drugTested else untested)).getD emptyS
          Lift := (r.lift.map LIFT_MAP).getD emptyS
          Sex := r.sex.getD emptyS
          Equipment := r.equipment.getD emptyS
          Record_Name := r.recordName.getD emptyS
          Location := r.location.getD emptyS }
  | _, _ => none

/-- load_data of dash.py on a list of raw rows. -/
def load_data (rows : List RawRow) : List NRec := rows.filterMap normRow

-- ## Filter Resolver (render_filters of dash.py, filtering core)

/-- The six user-selected criteria (st.session_state.filters). -/
structure Filters where
  sex : String
  division : String
  testing_status : String
  equipment : String
  weight_class : String
  search : String
deriving DecidableEq

/-- Token of the regular-expression fragment used to model pandas
    str.contains (regex=True, its default): an ordinary character or the
    any-character dot. Other regex metacharacters are outside the modelled
    fragment and are treated as ordinary characters; no claim depends on
    them (the amended search claim is restricted to metacharacter-free
    terms). -/
inductive Tok where
  | lit : Char → Tok
  | dot : Tok
deriving DecidableEq

/-- Compile a pattern to tokens. -/
def toksOf (pat : List Char) : List Tok :=
  pat.map (fun c => if c = '.' then Tok.dot else Tok.lit c)

/-- Single-token match ('.' matches any character except newline). -/
def matchTok : Tok → Char → Bool
  | Tok.dot, c => c ≠ '\n'
  | Tok.lit a, c => a = c

/-- Match the whole token list at the start of the text. -/
def matchAt : List Tok → List Char → Bool
  | [], _ => true
  | _ :: _, [] => false
  | t :: ts, c :: cs => matchTok t c && matchAt ts cs

/-- re.search: does the pattern match at some position of the text. -/
def reSearch (ts : List Tok) (hay : List Char) : Bool :=
  hay.tails.any (fun suf => matchAt ts suf)

/-- The seven columns scanned by the smart search, in source order. -/
def termFields (r : NRec) : List String :=
  [r.fullName, r.Record_Name, r.Class, r.Division_base, r.Equipment, r.Testing, r.Location]

/-- One search term matches a record when some scanned field, lower-cased,
    contains the term (str.contains, na=False; the term is already
    lower-cased by the caller). -/
def codeTermMatch (r : NRec) (t : List Char) : Bool :=
  (termFields r).any (fun f => reSearch (toksOf t) (lowerCP f))

/-- sel["search"].lower().split(). -/
def pyTerms (q : String) : List (List Char) := splitWs (lowerCP q)

/-- The free-text branch: successive filtering by every term. -/
def searchFilter (df : List NRec) (q : String) : List NRec :=
  (pyTerms q).foldl (fun acc t => acc.filter (fun r => codeTermMatch r t)) df

/-- Display label of an equipment value (presentation renaming used to build
    the equipment selectbox). -/
def displayOf (e : String) : String :=
  if e = "Multi-ply" then "Equipped" else if e = "Bare" then "Raw" else e

/-- Order-preserving unique (pandas Series.unique keeps first occurrences). -/
def uniqFirst : List String → List String → List String
  | [], _ => []
  | x :: xs, seen => if seen.contains x then uniqFirst xs seen else x :: uniqFirst xs (x :: seen)

/-- equipment_map[label]: the raw equipment value whose display label is the
    given one. The dict is built by zipping display labels with the sorted
    unique raw values, so a duplicated label keeps the last raw value; a
    missing label is a KeyError (none). -/
def equipmentRaw (df : List NRec) (label : String) : Option String :=
  ((sortBy strLe (uniqFirst (df.map (fun r => r.Equipment)) [])).filter
    (fun e => decide (displayOf e = label))).getLast?

/-- One structured exact-match filter. -/
def filterEq (get : NRec → String) (v : String) (l : List NRec) : List NRec :=
  l.filter (fun r => decide (get r = v))

/-- A structured filter that is skipped when its selection is "All". -/
def condFilter (v : String) (get : NRec → String) (l : List NRec) : List NRec :=
  if v = allS then l else filterEq get v l

/-- The equipment filter step: "All" skips it; otherwise the display label is
    mapped back through equipment_map, a KeyError (unknown label) propagating
    as none. -/
def equipStep (df : List NRec) (v : String) (l : List NRec) : Option (List NRec) :=
  if v = allS then some l
  else
    match equipmentRaw df v with
    | none => none
    | some raw => some (filterEq NRec.Equipment raw l)

/-- The filtering logic of render_filters: the free-text branch when the
    search string is non-empty (Python truthiness), otherwise the five
    structured exact-match filters in source order
    (sex, division, testing, equipment, weight class). -/
def render_filters (df : List NRec) (sel : Filters) : Option (List NRec) :=
  if sel.search ≠ emptyS then some (searchFilter df sel.search)
  else
    match equipStep df sel.equipment
      (condFilter sel.testing_status NRec.Testing
        (condFilter sel.division NRec.Division_base
          (condFilter sel.sex NRec.Sex df))) with
    | none => none
    | some f4 => some (condFilter sel.weight_class NRec.Class f4)

-- ## Record Reducer (best_per_class_and_lift of dash.py)

/-- Descending weight comparison used by sort_values("Weight",
    ascending=False). On the claims' domain both weights are numeric; an
    all-sentinel column holds only equal "" strings (every comparison ties);
    the mixed cross cases are unreachable behind the reducer's guard. -/
def wle (a b : NRec) : Bool :=
  match a.weight, b.weight with
  | some x, some y => dLe y x
  | some _, none => true
  | none, some _ => false
  | none, none => true

/-- Comparison of _class_num = pd.to_numeric(Class, errors="coerce") values;
    NaN (none) sorts after every number. -/
def cnLt : Option DecNum → Option DecNum → Bool
  | some a, some b => dLt a b
  | some _, none => true
  | none, _ => false

/-- LIFT_ORDER.index(x) if x in LIFT_ORDER else 99. -/
def liftIdx (s : String) : Nat :=
  if s = "Squat" then 0
  else if s = "Bench" then 1
  else if s = "Deadlift" then 2
  else if s = "Total" then 3
  else 99

/-- The final ordering key of the reducer:
    sort_values(["_class_num", "Class", "_lift_order"]) — numeric class
    ascending with NaN last, then the class string, then the lift rank. -/
def fle (a b : NRec) : Bool :=
  let na := parseNum a.Class
  let nb := parseNum b.Class
  if cnLt na nb then true
  else if cnLt nb na then false
  else if strLt a.Class b.Class then true
  else if strLt b.Class a.Class then false
  else decide (liftIdx a.Lift ≤ liftIdx b.Lift)

/-- The drop_duplicates key (subset=["Class", "Lift"]). -/
def keyCL (r : NRec) : String × String := (r.Class, r.Lift)

/-- Outcome of df.sort_values("Weight", ascending=False): that call uses the
    default kind quicksort, which pandas documents as NOT stable, so the
    program fixes no order among rows of equal weight. It is therefore
    modelled as a relation admitting every weight-sorted permutation of the
    input. Both conjuncts are decidable, so concrete instances evaluate. -/
def isWeightSort (df w : List NRec) : Prop :=
  w.Perm df ∧ w.Pairwise (fun a b => wle a b = true)

/-- best_per_class_and_lift of dash.py, as an input/outcome relation:
    sort by weight descending (any weight-sorted permutation — the unstable
    quicksort fixes no tie order), keep the first row of every (Class, Lift)
    pair (drop_duplicates keep=first), then sort by (numeric class, class
    string, lift rank). That second sort_values call passes a list of keys,
    for which pandas uses lexsort, which IS stable; it is modelled by the
    executable stable sort. Sorting a Weight column that mixes numbers with
    the "" sentinel raises TypeError in pandas, hence the guard conjunct:
    a mixed collection admits no outcome; an all-numeric or all-sentinel
    column sorts fine. -/
def best_per_class_and_lift (df out : List NRec) : Prop :=
  (df.all (fun r => r.weight.isSome) || df.all (fun r => r.weight.isNone)) = true ∧
  ∃ w, isWeightSort df w ∧ out = sortBy fle (dedupBy keyCL w [])

/-- The outcome the reducer produces when the weight quicksort happens to
    act stably (which is the dashboard's observed behavior); it is always
    one of the admissible outcomes, and serves to evaluate the relation on
    concrete inputs. -/
def stableReduce (df : List NRec) : List NRec :=
  sortBy fle (dedupBy keyCL (sortBy wle df) [])


-- ## Order properties of the reducer comparators

theorem dLt_asymm (a b : DecNum) (h : dLt a b = true) : dLt b a = false := by
  rw [dLt_eq_not_dLe] at h ⊢
  rcases dLe_total a b with h' | h'
  · rw [h']; rfl
  · rw [h'] at h; cases h

theorem dLt_trans (a b c : DecNum) (h1 : dLt a b = true) (h2 : dLt b c = true) :
    dLt a c = true := by
  simp only [dLt, decide_eq_true_eq] at h1 h2 ⊢
  have hb : (0 : Int) < pw10 b.sc := pw10_pos b.sc
  have g1 : a.man * pw10 b.sc * pw10 c.sc < b.man * pw10 a.sc * pw10 c.sc :=
    (mul_lt_mul_right (pw10_pos c.sc)).mpr h1
  have g2 : b.man * pw10 c.sc * pw10 a.sc < c.man * pw10 b.sc * pw10 a.sc :=
    (mul_lt_mul_right (pw10_pos a.sc)).mpr h2
  have g3 : a.man * pw10 c.sc * pw10 b.sc < c.man * pw10 a.sc * pw10 b.sc := by
    calc a.man * pw10 c.sc * pw10 b.sc = a.man * pw10 b.sc * pw10 c.sc := by ring
    _ < b.man * pw10 a.sc * pw10 c.sc := g1
    _ = b.man * pw10 c.sc * pw10 a.sc := by ring
    _ < c.man * pw10 b.sc * pw10 a.sc := g2
    _ = c.man * pw10 a.sc * pw10 b.sc := by ring
  exact (mul_lt_mul_right hb).mp g3

theorem dLt_tie_eq (a b : DecNum) (h1 : dLt a b = false) (h2 : dLt b a = false) :
    a.man * pw10 b.sc = b.man * pw10 a.sc := by
  rw [dLt_eq_not_dLe] at h1 h2
  refine dLe_asymm_eq a b ?_ ?_
  · cases h : dLe a b
    · rw [h] at h2; cases h2
    · rfl
  · cases h : dLe b a
    · rw [h] at h1; cases h1
    · rfl

theorem cnLt_asymm (x y : Option DecNum) (h : cnLt x y = true) : cnLt y x = false := by
  cases x with
  | none => cases h
  | some a =>
    cases y with
    | none => rfl
    | some b => exact dLt_asymm a b h

theorem cnLt_trans (x y z : Option DecNum) (h1 : cnLt x y = true) (h2 : cnLt y z = true) :
    cnLt x z = true := by
  cases x with
  | none => cases h1
  | some a =>
    cases y with
    | none => cases h2
    | some b =>
      cases z with
      | none => rfl
      | some c => exact dLt_trans a b c h1 h2

theorem cnLt_congr_l (x y z : Option DecNum) (h1 : cnLt x y = false) (h2 : cnLt y x = false) :
    cnLt x z = cnLt y z := by
  cases x with
  | none =>
    cases y with
    | none => rfl
    | some b => cases h2
  | some a =>
    cases y with
    | none => cases h1
    | some b =>
      cases z with
      | none => rfl
      | some c => exact dLt_congr_left a b c (dLt_tie_eq a b h1 h2)

theorem cnLt_congr_r (x y z : Option DecNum) (h1 : cnLt x y = false) (h2 : cnLt y x = false) :
    cnLt z x = cnLt z y := by
  cases x with
  | none =>
    cases y with
    | none => rfl
    | some b => cases h2
  | some a =>
    cases y with
    | none => cases h1
    | some b =>
      cases z with
      | none => rfl
      | some c => exact dLt_congr_right a b c (dLt_tie_eq a b h1 h2)

-- ## Generic lexicographic composition of comparators

/-- Lexicographic refinement: strict comparison lt first, tie broken by le. -/
def lexComp {α : Type} (lt le : α → α → Bool) (a b : α) : Bool :=
  if lt a b then true else if lt b a then false else le a b

theorem lexComp_total {α : Type} (lt le : α → α → Bool)
    (hle : ∀ a b, le a b = true ∨ le b a = true) (a b : α) :
    lexComp lt le a b = true ∨ lexComp lt le b a = true := by
  unfold lexComp
  by_cases p : lt a b = true
  · left
    rw [if_pos p]
  · by_cases q : lt b a = true
    · right
      rw [if_pos q]
    · rcases hle a b with h | h
      · left
        rw [if_neg p, if_neg q]
        exact h
      · right
        rw [if_neg q, if_neg p]
        exact h

theorem lexComp_trans {α : Type} (lt le : α → α → Bool)
    (htr : ∀ a b c, lt a b = true → lt b c = true → lt a c = true)
    (hcl : ∀ a b c, lt a b = false → lt b a = false → lt a c = lt b c)
    (hcr : ∀ a b c, lt a b = false → lt b a = false → lt c a = lt c b)
    (hletr : ∀ a b c, le a b = true → le b c = true → le a c = true)
    (a b c : α) (h1 : lexComp lt le a b = true) (h2 : lexComp lt le b c = true) :
    lexComp lt le a c = true := by
  unfold lexComp at h1 h2 ⊢
  by_cases pab : lt a b = true
  · by_cases pbc : lt b c = true
    · rw [if_pos (htr a b c pab pbc)]
    · by_cases pcb : lt c b = true
      · rw [if_neg pbc, if_pos pcb] at h2; cases h2
      · have hbf : lt b c = false := by
          cases hv : lt b c
          · rfl
          · exact absurd hv pbc
        have hcf : lt c b = false := by
          cases hv : lt c b
          · rfl
          · exact absurd hv pcb
        have : lt a b = lt a c := hcr b c a hbf hcf
        rw [this] at pab
        rw [if_pos pab]
  · have pabf : lt a b = false := by
      cases hv : lt a b
      · rfl
      · exact absurd hv pab
    by_cases pba : lt b a = true
    · rw [if_neg pab, if_pos pba] at h1; cases h1
    · have pbaf : lt b a = false := by
        cases hv : lt b a
        · rfl
        · exact absurd hv pba
      rw [if_neg pab, if_neg pba] at h1
      by_cases pbc : lt b c = true
      · have : lt a c = lt b c := hcl a b c pabf pbaf
        rw [pbc] at this
        rw [if_pos this]
      · by_cases pcb : lt c b = true
        · rw [if_neg pbc, if_pos pcb] at h2; cases h2
        · have pbcf : lt b c = false := by
            cases hv : lt b c
            · rfl
            · exact absurd hv pbc
          have pcbf : lt c b = false := by
            cases hv : lt c b
            · rfl
            · exact absurd hv pcb
          rw [if_neg pbc, if_neg pcb] at h2
          have hac : lt a c = false := by rw [hcl a b c pabf pbaf]; exact pbcf
          have hca : lt c a = false := by rw [hcr a b c pabf pbaf]; exact pcbf
          rw [if_neg (by rw [hac]; exact fun hh => nomatch hh),
            if_neg (by rw [hca]; exact fun hh => nomatch hh)]
          exact hletr a b c h1 h2

-- ## Comparator instances for the reducer keys

/-- Strict comparison by numeric weight class. -/
def classNumLt (a b : NRec) : Bool := cnLt (parseNum a.Class) (parseNum b.Class)

/-- Strict comparison by the class string. -/
def classStrLt (a b : NRec) : Bool := strLt a.Class b.Class

/-- Comparison by canonical lift rank. -/
def liftIdxLe (a b : NRec) : Bool := decide (liftIdx a.Lift ≤ liftIdx b.Lift)

theorem fle_def (a b : NRec) :
    fle a b = lexComp classNumLt (lexComp classStrLt liftIdxLe) a b := rfl

theorem classStrLt_congr_l (a b c : NRec) (h1 : classStrLt a b = false)
    (h2 : classStrLt b a = false) : classStrLt a c = classStrLt b c := by
  unfold classStrLt strLt at h1 h2 ⊢
  rw [nlLt_eq_of_not (codePoints a.Class) (codePoints b.Class) h1 h2]

theorem classStrLt_congr_r (a b c : NRec) (h1 : classStrLt a b = false)
    (h2 : classStrLt b a = false) : classStrLt c a = classStrLt c b := by
  unfold classStrLt strLt at h1 h2 ⊢
  rw [nlLt_eq_of_not (codePoints a.Class) (codePoints b.Class) h1 h2]

theorem inner_total (a b : NRec) :
    lexComp classStrLt liftIdxLe a b = true ∨ lexComp classStrLt liftIdxLe b a = true := by
  refine lexComp_total _ _ ?_ a b
  intro x y
  unfold liftIdxLe
  rcases Nat.le_total (liftIdx x.Lift) (liftIdx y.Lift) with h | h
  · exact Or.inl (decide_eq_true h)
  · exact Or.inr (decide_eq_true h)

theorem inner_trans (a b c : NRec) (h1 : lexComp classStrLt liftIdxLe a b = true)
    (h2 : lexComp classStrLt liftIdxLe b c = true) :
    lexComp classStrLt liftIdxLe a c = true := by
  refine lexComp_trans _ _ ?_ ?_ ?_ ?_ a b c h1 h2
  · intro x y z hx hy
    exact nlLt_trans _ _ _ hx hy
  · exact classStrLt_congr_l
  · exact classStrLt_congr_r
  · intro x y z hx hy
    unfold liftIdxLe at hx hy ⊢
    exact decide_eq_true (Nat.le_trans (of_decide_eq_true hx) (of_decide_eq_true hy))

theorem fle_total (a b : NRec) : fle a b = true ∨ fle b a = true := by
  rw [fle_def, fle_def]
  exact lexComp_total _ _ inner_total a b

theorem fle_trans (a b c : NRec) (h1 : fle a b = true) (h2 : fle b c = true) :
    fle a c = true := by
  rw [fle_def] at h1 h2 ⊢
  refine lexComp_trans _ _ ?_ ?_ ?_ inner_trans a b c h1 h2
  · intro x y z hx hy
    exact cnLt_trans _ _ _ hx hy
  · intro x y z hx hy
    exact cnLt_congr_l _ _ _ hx hy
  · intro x y z hx hy
    exact cnLt_congr_r _ _ _ hx hy

theorem wle_total (a b : NRec) : wle a b = true ∨ wle b a = true := by
  unfold wle
  cases ha : a.weight with
  | none =>
    cases hb : b.weight with
    | none => exact Or.inl rfl
    | some y => exact Or.inr rfl
  | some x =>
    cases hb : b.weight with
    | none => exact Or.inl rfl
    | some y => exact dLe_total y x

theorem wle_trans (a b c : NRec) (h1 : wle a b = true) (h2 : wle b c = true) :
    wle a c = true := by
  unfold wle at h1 h2 ⊢
  cases ha : a.weight with
  | none =>
    cases hb : b.weight with
    | none =>
      cases hc : c.weight with
      | none => rfl
      | some z =>
        rw [ha, hb] at h1
        rw [hb, hc] at h2
        cases h2
    | some y =>
      rw [ha, hb] at h1
      cases h1
  | some x =>
    cases hc : c.weight with
    | none => rfl
    | some z =>
      cases hb : b.weight with
      | none =>
        rw [hb, hc] at h2
        cases h2
      | some y =>
        rw [ha, hb] at h1
        rw [hb, hc] at h2
        exact dLe_trans z y x h2 h1

-- ## Specification-side definitions (formalizing the claims' wording)

/-- Strictly greater weight; used only on records with numeric weight. -/
def wgtGt (a b : NRec) : Bool :=
  match a.weight, b.weight with
  | some x, some y => dLt y x
  | _, _ => false

/-- The record of maximum weight, resolving ties in favour of the record
    listed first; none on an empty collection. This follows the
    specification's wording of the reducer's selection rule. -/
def specFirstMax : List NRec → Option NRec
  | [] => none
  | r :: g =>
    match specFirstMax g with
    | none => some r
    | some m => if wgtGt m r then some m else some r

/-- Plain substring test, the specification's reading of a term match. -/
def isSubstr (needle hay : List Char) : Bool :=
  hay.tails.any (fun suf => needle.isPrefixOf suf)

/-- The specification's per-term match: the term is a substring of some
    searched field, case-insensitively. -/
def specTermMatch (r : NRec) (t : List Char) : Bool :=
  (termFields r).any (fun f => isSubstr t (lowerCP f))

/-- Regular-expression metacharacters of Python re, by code point:
    . * + ? ( ) [ ] left-brace right-brace | ^ $ backslash. -/
def regexMeta (c : Char) : Bool :=
  [46, 42, 43, 63, 40, 41, 91, 93, 123, 125, 124, 94, 36, 92].contains c.toNat

-- ## Bridging lemmas

theorem wle_eq_not_wgtGt (a b : NRec) (ha : a.weight.isSome = true)
    (hb : b.weight.isSome = true) : wle a b = !(wgtGt b a) := by
  unfold wle wgtGt
  cases hwa : a.weight with
  | none => rw [hwa] at ha; cases ha
  | some x =>
    cases hwb : b.weight with
    | none => rw [hwb] at hb; cases hb
    | some y =>
      have := dLt_eq_not_dLe x y
      cases hd : dLe y x
      · rw [hd] at this
        simp only [this, Bool.not_false, Bool.not_true]
        exact hd
      · rw [hd] at this
        simp only [this, Bool.not_true, Bool.not_false]
        exact hd

theorem mem_foldl_filter {τ α : Type} (p : τ → α → Bool) (ts : List τ) (df : List α)
    (r : α) :
    r ∈ ts.foldl (fun acc t => acc.filter (fun x => p t x)) df ↔
      r ∈ df ∧ ∀ t ∈ ts, p t r = true := by
  induction ts generalizing df with
  | nil => simp
  | cons t ts ih =>
    rw [List.foldl_cons, ih]
    simp only [List.mem_filter, List.forall_mem_cons]
    tauto

theorem matchAt_lit (t : List Char) (cs : List Char) :
    matchAt (t.map Tok.lit) cs = t.isPrefixOf cs := by
  induction t generalizing cs with
  | nil => cases cs <;> rfl
  | cons a t' ih =>
    cases cs with
    | nil => rfl
    | cons c cs' =>
      rw [show (a :: t').map Tok.lit = Tok.lit a :: t'.map Tok.lit from rfl]
      rw [show matchAt (Tok.lit a :: t'.map Tok.lit) (c :: cs') =
        (matchTok (Tok.lit a) c && matchAt (t'.map Tok.lit) cs') from rfl]
      rw [show (a :: t').isPrefixOf (c :: cs') = (a == c && t'.isPrefixOf cs') from rfl]
      rw [ih cs']
      have : matchTok (Tok.lit a) c = (a == c) := by
        cases hac : (a == c)
        · have hne : ¬ a = c := by simpa using hac
          simp [matchTok, hne]
        · have heq : a = c := by simpa using hac
          simp [matchTok, heq]
      rw [this]

theorem toksOf_of_no_dot (t : List Char) (h : ('.') ∉ t) : toksOf t = t.map Tok.lit := by
  unfold toksOf
  refine List.map_congr_left ?_
  intro c hc
  rw [if_neg ?_]
  intro hcd
  rw [hcd] at hc
  exact h hc

theorem reSearch_lit (t hay : List Char) (h : ('.') ∉ t) :
    reSearch (toksOf t) hay = isSubstr t hay := by
  rw [reSearch, isSubstr, toksOf_of_no_dot t h]
  simp only [matchAt_lit]

theorem no_dot_of_meta_free (t : List Char) (h : ∀ c ∈ t, regexMeta c = false) :
    ('.') ∉ t := by
  intro hd
  have := h ('.') hd
  rw [show regexMeta ('.') = true by decide] at this
  cases this

theorem codeTermMatch_eq_spec (r : NRec) (t : List Char)
    (h : ∀ c ∈ t, regexMeta c = false) : codeTermMatch r t = specTermMatch r t := by
  unfold codeTermMatch specTermMatch
  simp only [reSearch_lit t _ (no_dot_of_meta_free t h)]

theorem pySpace_toLower (c : Char) (h : pySpace c = true) :
    pySpace (Char.toLower c) = true := by
  have h5 : c = ' ' ∨ c = '\t' ∨ c = '\n' ∨ c = '\r' ∨ c = '\x0b' ∨ c = '\x0c' := by
    simp only [pySpace, Bool.or_eq_true, decide_eq_true_eq] at h
    tauto
  rcases h5 with h | h | h | h | h | h <;> subst h <;> decide

theorem splitWsF_space (c : Char) (acc : List (List Char)) (h : pySpace c = true) :
    splitWsF c acc = [] :: acc := by
  unfold splitWsF
  rw [if_pos h]

theorem splitWs_all_space (l : List Char) (h : ∀ c ∈ l, pySpace c = true) :
    splitWs l = [] := by
  induction l with
  | nil => rfl
  | cons c cs ih =>
    rw [splitWs, List.foldr_cons, splitWsF_space c _ (h c (List.mem_cons_self c cs))]
    rw [show List.filter (fun t => t ≠ []) ([] :: List.foldr splitWsF [] cs) =
      List.filter (fun t => t ≠ []) (List.foldr splitWsF [] cs) by simp [List.filter_cons]]
    show splitWs cs = []
    exact ih (fun x hx => h x (List.mem_cons_of_mem c hx))

theorem pyTerms_all_space (s : String) (h : ∀ c ∈ s.data, pySpace c = true) :
    pyTerms s = [] := by
  rw [pyTerms, lowerCP]
  refine splitWs_all_space _ ?_
  intro c hc
  rcases List.mem_map.mp hc with ⟨c0, hc0, rfl⟩
  exact pySpace_toLower c0 (h c0 hc0)

theorem stripDT_append (s : String) (h : endsDT s = true) :
    stripDT s ++ dtSuffix = s := by
  rw [stripDT, if_pos h]
  rw [endsDT] at h
  cases hrev : s.data.reverse with
  | nil => rw [hrev] at h; cases h
  | cons c1 tl =>
    cases tl with
    | nil => rw [hrev] at h; cases h
    | cons c2 rest =>
      rw [hrev] at h
      simp only [Bool.and_eq_true, decide_eq_true_eq] at h
      rcases h with ⟨h1, h2⟩
      have hdata : s.data = rest.reverse ++ [c2] ++ [c1] := by
        have := congrArg List.reverse hrev
        rw [List.reverse_reverse] at this
        rw [this]
        simp
      have hdl : s.data.dropLast.dropLast = rest.reverse := by
        rw [hdata, List.dropLast_concat, List.dropLast_concat]
      have hdt : dtSuffix = String.mk [c2, c1] := by
        rw [h1, h2]
        decide
      rw [hdl, hdt]
      rw [show String.mk rest.reverse ++ String.mk [c2, c1] =
        String.mk (rest.reverse ++ [c2, c1]) from rfl]
      rw [show rest.reverse ++ [c2, c1] = rest.reverse ++ [c2] ++ [c1] by simp]
      rw [← hdata]

theorem mem_searchFilter (df : List NRec) (q : String) (r : NRec)
    (h : r ∈ searchFilter df q) : r ∈ df :=
  ((mem_foldl_filter (fun t x => codeTermMatch x t) (pyTerms q) df r).mp h).1

theorem mem_condFilter (v : String) (get : NRec → String) (l : List NRec) (r : NRec)
    (h : r ∈ condFilter v get l) : r ∈ l := by
  rw [condFilter] at h
  by_cases hv : v = allS
  · rw [if_pos hv] at h; exact h
  · rw [if_neg hv] at h
    exact (List.mem_filter.mp h).1

theorem mem_equipStep (df : List NRec) (v : String) (l out : List NRec) (r : NRec)
    (h : equipStep df v l = some out) (hr : r ∈ out) : r ∈ l := by
  rw [equipStep] at h
  by_cases hv : v = allS
  · rw [if_pos hv] at h
    injection h with h
    rw [← h] at hr
    exact hr
  · rw [if_neg hv] at h
    cases he : equipmentRaw df v with
    | none => rw [he] at h; cases h
    | some raw =>
      rw [he] at h
      injection h with h
      rw [← h] at hr
      exact (List.mem_filter.mp hr).1

theorem mem_render_filters (df : List NRec) (sel : Filters) (out : List NRec) (r : NRec)
    (h : render_filters df sel = some out) (hr : r ∈ out) : r ∈ df := by
  rw [render_filters] at h
  by_cases hs : sel.search ≠ emptyS
  · rw [if_pos hs] at h
    injection h with h
    rw [← h] at hr
    exact mem_searchFilter df sel.search r hr
  · rw [if_neg hs] at h
    cases he : equipStep df sel.equipment
        (condFilter sel.testing_status NRec.Testing
          (condFilter sel.division NRec.Division_base
            (condFilter sel.sex NRec.Sex df))) with
    | none => rw [he] at h; cases h
    | some f4 =>
      rw [he] at h
      injection h with h
      rw [← h] at hr
      have h1 := mem_condFilter sel.weight_class NRec.Class f4 r hr
      have h2 := mem_equipStep df sel.equipment _ f4 r he h1
      have h3 := mem_condFilter sel.testing_status NRec.Testing _ r h2
      have h4 := mem_condFilter sel.division NRec.Division_base _ r h3
      exact mem_condFilter sel.sex NRec.Sex df r h4

theorem best_per_intro (l : List NRec)
    (hg : (l.all (fun r => r.weight.isSome) || l.all (fun r => r.weight.isNone)) = true) :
    best_per_class_and_lift l (stableReduce l) :=
  ⟨hg, sortBy wle l, ⟨perm_sortBy wle l, sorted_sortBy wle wle_total wle_trans l⟩, rfl⟩

theorem mem_best_per (l out : List NRec) (r : NRec)
    (h : best_per_class_and_lift l out) (hr : r ∈ out) : r ∈ l := by
  rcases h with ⟨_, w, ⟨hperm, _⟩, heq⟩
  rw [heq] at hr
  have h1 := (mem_sortBy fle _ r).mp hr
  have h2 := mem_dedupBy keyCL _ [] r h1
  exact hperm.mem_iff.mp h2

-- ## Characterization of normalization

theorem append_emptyS (s : String) : s ++ emptyS = s := by
  have he : emptyS = String.mk [] := by decide
  cases s with
  | mk l =>
    rw [he]
    rw [show String.mk l ++ String.mk [] = String.mk (l ++ []) from rfl]
    rw [List.append_nil]

theorem normRow_spec (row : RawRow) (r : NRec) (h : normRow row = some r) :
    ∃ fn w, row.fullName = some fn ∧ row.weight = some w ∧
      r.fullName = fn ∧ r.weight = parseNum w ∧
      r.Class = pyStrip (astypeStr row.Class) ∧
      INVALID_WEIGHT_CLASSES.contains r.Class = false ∧
      r.Division_raw = (row.division.map pyStrip).getD emptyS ∧
      r.Division_base = ((row.division.map pyStrip).map stripDT).getD emptyS ∧
      r.Testing = ((row.division.map pyStrip).map
        (fun d => if endsDT d then drugTested else untested)).getD emptyS := by
  unfold normRow at h
  cases hfn : row.fullName with
  | none => rw [hfn] at h; cases h
  | some fn =>
    cases hwt : row.weight with
    | none => rw [hfn, hwt] at h; cases h
    | some w =>
      rw [hfn, hwt] at h
      simp only at h
      by_cases hcls :
          INVALID_WEIGHT_CLASSES.contains (pyStrip (astypeStr row.Class)) = true
      · rw [if_pos hcls] at h; cases h
      · rw [if_neg hcls] at h
        injection h with h
        rw [← h]
        exact ⟨fn, w, rfl, rfl, rfl, rfl, rfl, Bool.eq_false_iff.mpr hcls, rfl, rfl, rfl⟩

theorem normRow_none_iff (row : RawRow) :
    normRow row = none ↔ (row.fullName = none ∨ row.weight = none ∨
      INVALID_WEIGHT_CLASSES.contains (pyStrip (astypeStr row.Class)) = true) := by
  unfold normRow
  cases hfn : row.fullName with
  | none => simp
  | some fn =>
    cases hwt : row.weight with
    | none => simp
    | some w =>
      simp only [Option.some.injEq, false_or, reduceCtorEq]
      by_cases hcls :
          INVALID_WEIGHT_CLASSES.contains (pyStrip (astypeStr row.Class)) = true
      · rw [if_pos hcls]
        simp only [true_iff]
        simpa using hcls
      · rw [if_neg hcls]
        simp only [reduceCtorEq, false_iff]
        simpa using hcls

-- ## Claims about the Dataset Normalizer

def rowC1 : RawRow :=
  ⟨some ("Ann"), some ("abc"), some ("100"), some ("Opens"), some ("S"), some ("F"),
    some ("Bare"), some ("RN"), some ("Leeds")⟩

/-- Claim C1, counterexample: a raw row whose weight string abc fails numeric
    parsing is NOT dropped by load_data; it survives normalization with the
    non-numeric sentinel weight, contradicting the claim that such rows are
    dropped and that every retained weight is numeric. -/
theorem unparseable_weight_retained :
    load_data [rowC1] ≠ [] ∧
      (load_data [rowC1]).all (fun r => r.weight.isNone) = true := by
  constructor
  · decide
  · decide

/-- Claim C1 (amended): every retained record's full_name comes from a present
    (non-missing) raw cell, hence is non-empty whenever the raw data never
    holds a literal empty-string name (read_csv turns empty cells into
    missing values); and a row is dropped exactly when its name or weight
    cell is missing or its trimmed class is an invalid token — weight
    parseability plays no part, an unparseable weight being retained as the
    sentinel. -/
theorem load_data_retention (rows : List RawRow)
    (hne : ∀ row ∈ rows, row.fullName ≠ some emptyS) :
    (∀ r ∈ load_data rows, r.fullName ≠ emptyS) ∧
    (∀ row ∈ rows, (normRow row = none ↔ (row.fullName = none ∨ row.weight = none ∨
      INVALID_WEIGHT_CLASSES.contains (pyStrip (astypeStr row.Class)) = true))) := by
  constructor
  · intro r hr
    rcases List.mem_filterMap.mp hr with ⟨row, hrow, hnorm⟩
    rcases normRow_spec row r hnorm with ⟨fn, w, hfn, _, hrfn, _⟩
    intro hemp
    refine hne row hrow ?_
    rw [hfn, ← hrfn, hemp]
  · intro row _
    exact normRow_none_iff row

def rowsC1w : List RawRow := [rowC1]

/-- Witness for the amended claim C1 at a concrete input. -/
theorem load_data_retention_witness :
    (∀ row ∈ rowsC1w, row.fullName ≠ some emptyS) ∧
    ((∀ r ∈ load_data rowsC1w, r.fullName ≠ emptyS) ∧
    (∀ row ∈ rowsC1w, (normRow row = none ↔ (row.fullName = none ∨ row.weight = none ∨
      INVALID_WEIGHT_CLASSES.contains (pyStrip (astypeStr row.Class)) = true)))) :=
  ⟨by decide, load_data_retention rowsC1w (by decide)⟩

def rowC7 : RawRow :=
  ⟨some ("Dee"), some ("90"), some ("90"), none, some ("T"), some ("F"),
    some ("Bare"), some ("RN"), some ("York")⟩

/-- Claim C7, counterexample: a retained row whose Division cell is missing
    gets the empty testing status (NaN propagated through the suffix test and
    then filled with ""), which is neither Drug Tested nor Untested. -/
theorem missing_division_testing :
    (load_data [rowC7]).map (fun r => r.Testing) = [emptyS] ∧
      ¬ (emptyS = drugTested ∨ emptyS = untested) := by
  constructor
  · decide
  · decide

/-- Claim C7 (amended): testing_status is one of Drug Tested, Untested or the
    empty string; it equals Drug Tested exactly when division_raw ends with
    the DT suffix; and it is empty exactly for rows whose raw division cell
    is missing. -/
theorem testing_status_characterization (rows : List RawRow) :
    (∀ r ∈ load_data rows,
      (r.Testing = drugTested ∨ r.Testing = untested ∨ r.Testing = emptyS) ∧
      (r.Testing = drugTested ↔ endsDT r.Division_raw = true)) ∧
    (∀ row ∈ rows, ∀ r, normRow row = some r →
      (r.Testing = emptyS ↔ row.division = none)) := by
  constructor
  · intro r hr
    rcases List.mem_filterMap.mp hr with ⟨row, _, hnorm⟩
    rcases normRow_spec row r hnorm with ⟨fn, w, _, _, _, _, _, _, hraw, _, htst⟩
    cases hdiv : row.division with
    | none =>
      rw [hdiv] at hraw htst
      simp only [Option.map_none', Option.getD_none] at hraw htst
      rw [htst, hraw]
      refine ⟨Or.inr (Or.inr rfl), ?_⟩
      constructor
      · intro hh
        exact absurd hh (by decide)
      · intro hh
        rw [show endsDT emptyS = false by decide] at hh
        cases hh
    | some d =>
      rw [hdiv] at hraw htst
      simp only [Option.map_some', Option.getD_some] at hraw htst
      rw [htst, hraw]
      by_cases hdt : endsDT (pyStrip d) = true
      · rw [if_pos hdt]
        exact ⟨Or.inl rfl, by simp [hdt]⟩
      · rw [if_neg hdt]
        refine ⟨Or.inr (Or.inl rfl), ?_⟩
        constructor
        · intro hh
          exact absurd hh (by decide)
        · intro hh
          exact absurd hh hdt
  · intro row _ r hnorm
    rcases normRow_spec row r hnorm with ⟨fn, w, _, _, _, _, _, _, hraw, _, htst⟩
    cases hdiv : row.division with
    | none =>
      rw [hdiv] at htst
      simp only [Option.map_none', Option.getD_none] at htst
      simp [htst]
    | some d =>
      rw [hdiv] at htst
      simp only [Option.map_some', Option.getD_some] at htst
      rw [htst]
      by_cases hdt : endsDT (pyStrip d) = true
      · rw [if_pos hdt]
        constructor
        · intro hh
          exact absurd hh (by decide)
        · intro hh
          cases hh
      · rw [if_neg hdt]
        constructor
        · intro hh
          exact absurd hh (by decide)
        · intro hh
          cases hh

def rowsC7w : List RawRow := [rowC7,
  ⟨some ("Ann"), some ("205"), some ("100"), some ("OpensDT"), some ("S"), some ("F"),
    some ("Bare"), some ("RN"), some ("Leeds")⟩]

def recC7w : NRec :=
  ⟨"Ann", some ⟨205, 0⟩, "100", "OpensDT", "Opens", "Drug Tested", "Squat", "F",
    "Bare", "RN", "Leeds"⟩

/-- Witness for the amended claim C7 at a concrete input. -/
theorem testing_status_characterization_witness :
    (recC7w ∈ load_data rowsC7w) ∧
    ((recC7w.Testing = drugTested ∨ recC7w.Testing = untested ∨ recC7w.Testing = emptyS) ∧
      (recC7w.Testing = drugTested ↔ endsDT recC7w.Division_raw = true)) :=
  ⟨by decide, (testing_status_characterization rowsC7w).1 recC7w (by decide)⟩

/-- Claim C8: for every normalized record, division_base concatenated with
    the DT suffix when drug tested (and with nothing otherwise) reconstructs
    division_raw exactly. -/
theorem division_reconstruction (rows : List RawRow) :
    ∀ r ∈ load_data rows,
      r.Division_base ++ (if r.Testing = drugTested then dtSuffix else emptyS) =
        r.Division_raw := by
  intro r hr
  rcases List.mem_filterMap.mp hr with ⟨row, _, hnorm⟩
  rcases normRow_spec row r hnorm with ⟨fn, w, _, _, _, _, _, _, hraw, hbase, htst⟩
  cases hdiv : row.division with
  | none =>
    rw [hdiv] at hraw hbase htst
    simp only [Option.map_none', Option.getD_none] at hraw hbase htst
    rw [hraw, hbase, htst]
    rw [if_neg (by decide)]
    exact append_emptyS emptyS
  | some d =>
    rw [hdiv] at hraw hbase htst
    simp only [Option.map_some', Option.getD_some] at hraw hbase htst
    rw [hraw, hbase, htst]
    by_cases hdt : endsDT (pyStrip d) = true
    · rw [if_pos hdt, if_pos rfl]
      exact stripDT_append (pyStrip d) hdt
    · rw [if_neg hdt, if_neg (by decide)]
      rw [stripDT, if_neg hdt]
      exact append_emptyS (pyStrip d)

def rowsC8w : List RawRow := [
  ⟨some ("Ann"), some ("205"), some ("100"), some ("OpensDT"), some ("S"), some ("F"),
    some ("Bare"), some ("RN"), some ("Leeds")⟩]

def recC8w : NRec :=
  ⟨"Ann", some ⟨205, 0⟩, "100", "OpensDT", "Opens", "Drug Tested", "Squat", "F",
    "Bare", "RN", "Leeds"⟩

/-- Witness for claim C8 at a concrete input. -/
theorem division_reconstruction_witness :
    (recC8w ∈ load_data rowsC8w) ∧
    (recC8w.Division_base ++ (if recC8w.Testing = drugTested then dtSuffix else emptyS) =
      recC8w.Division_raw) :=
  ⟨by decide, division_reconstruction rowsC8w recC8w (by decide)⟩

/-- Claim C9: no normalized record carries an invalid weight-class token, and
    since the Filter Resolver and the Record Reducer only ever select subsets
    of their input, no invalid class (in particular the cell placeholder)
    appears in any filtered or reduced output of the pipeline. -/
theorem invalid_classes_dropped (rows : List RawRow) :
    (∀ r ∈ load_data rows, INVALID_WEIGHT_CLASSES.contains r.Class = false) ∧
    (∀ sel out, render_filters (load_data rows) sel = some out →
      ∀ r ∈ out, INVALID_WEIGHT_CLASSES.contains r.Class = false) ∧
    (∀ sel mid out, render_filters (load_data rows) sel = some mid →
      best_per_class_and_lift mid out →
      ∀ r ∈ out, INVALID_WEIGHT_CLASSES.contains r.Class = false) := by
  have h1 : ∀ r ∈ load_data rows, INVALID_WEIGHT_CLASSES.contains r.Class = false := by
    intro r hr
    rcases List.mem_filterMap.mp hr with ⟨row, _, hnorm⟩
    rcases normRow_spec row r hnorm with ⟨fn, w, _, _, _, _, _, hinv, _, _, _⟩
    exact hinv
  refine ⟨h1, ?_, ?_⟩
  · intro sel out hout r hr
    exact h1 r (mem_render_filters (load_data rows) sel out r hout hr)
  · intro sel mid out hmid hout r hr
    exact h1 r (mem_render_filters (load_data rows) sel mid r hmid
      (mem_best_per mid out r hout hr))

def rowsC9w : List RawRow := [
  ⟨some ("Ann"), some ("205"), some ("100"), some ("OpensDT"), some ("S"), some ("F"),
    some ("Bare"), some ("RN"), some ("Leeds")⟩,
  ⟨some ("Cat"), some ("90"), some (" cell "), some ("Opens"), some ("D"), some ("F"),
    some ("Bare"), some ("RN"), some ("York")⟩]

def selC9w : Filters := ⟨"All", "All", "All", "All", "All", ""⟩

def midC9w : List NRec := load_data rowsC9w

def outC9w : List NRec := stableReduce midC9w

def recC9w : NRec :=
  ⟨"Ann", some ⟨205, 0⟩, "100", "OpensDT", "Opens", "Drug Tested", "Squat", "F",
    "Bare", "RN", "Leeds"⟩

/-- Witness for claim C9 at a concrete input: a raw sheet containing a cell
    placeholder row; the whole filtered-and-reduced pipeline output carries
    no invalid class. -/
theorem invalid_classes_dropped_witness :
    (render_filters (load_data rowsC9w) selC9w = some midC9w) ∧
    (best_per_class_and_lift midC9w outC9w) ∧
    (recC9w ∈ outC9w) ∧
    (INVALID_WEIGHT_CLASSES.contains recC9w.Class = false) :=
  ⟨by decide, best_per_intro midC9w (by decide), by decide,
    (invalid_classes_dropped rowsC9w).2.2 selC9w midC9w outC9w (by decide)
      (best_per_intro midC9w (by decide)) recC9w (by decide)⟩

-- ## Claims about the Filter Resolver

/-- Claim C3: with a non-empty search string the resolver takes the free-text
    branch, so the five structured filter selections have no effect on the
    result: any two settings give the same output. -/
theorem search_overrides_filters (df : List NRec) (s : String)
    (a1 b1 c1 d1 e1 a2 b2 c2 d2 e2 : String) (hs : s ≠ emptyS) :
    render_filters df ⟨a1, b1, c1, d1, e1, s⟩ = render_filters df ⟨a2, b2, c2, d2, e2, s⟩ := by
  simp [render_filters, hs]

def dfC3w : List NRec :=
  [⟨"Ann", some ⟨200, 0⟩, "100", "Opens", "Opens", "Untested", "Squat", "F", "Bare",
    "RN", "Leeds"⟩]

def sC3w : String := "ann"

/-- Witness for claim C3 at a concrete input with two different structured
    settings. -/
theorem search_overrides_filters_witness :
    sC3w ≠ emptyS ∧
    render_filters dfC3w ⟨"F", "Opens", "Untested", "Raw", "100", sC3w⟩ =
      render_filters dfC3w ⟨"M", "Junior", "All", "All", "All", sC3w⟩ :=
  ⟨by decide, search_overrides_filters dfC3w sC3w
    "F" "Opens" "Untested" "Raw" "100" "M" "Junior" "All" "All" "All" (by decide)⟩

/-- Claim C10: a search string that is non-empty but all whitespace is truthy
    in Python, so the free-text branch is taken; lower().split() yields zero
    terms, the per-term loop does not run, and the entire collection is
    returned unchanged, the structured filters being bypassed. -/
theorem whitespace_search_returns_all (df : List NRec) (f : Filters) (s : String)
    (hne : s ≠ emptyS) (hsp : ∀ c ∈ s.data, pySpace c = true) :
    pyTerms s = [] ∧ render_filters df { f with search := s } = some df := by
  have ht : pyTerms s = [] := pyTerms_all_space s hsp
  refine ⟨ht, ?_⟩
  simp only [render_filters, hne, ne_eq, not_false_iff, if_pos]
  rw [searchFilter, ht]
  rfl

def dfC10w : List NRec :=
  [⟨"Ann", some ⟨200, 0⟩, "100", "Opens", "Opens", "Untested", "Squat", "F", "Bare",
    "RN", "Leeds"⟩,
   ⟨"Bob", some ⟨150, 0⟩, "90", "Junior", "Junior", "Untested", "Bench", "M", "Bare",
    "RN", "York"⟩]

def sC10w : String := " "

/-- Witness for claim C10 at a concrete input: a single-space search over a
    two-record collection with restrictive structured selections. -/
theorem whitespace_search_returns_all_witness :
    sC10w ≠ emptyS ∧ (∀ c ∈ sC10w.data, pySpace c = true) ∧
    (pyTerms sC10w = [] ∧
      render_filters dfC10w ⟨"F", "Opens", "Drug Tested", "Raw", "100", sC10w⟩ =
        some dfC10w) :=
  ⟨by decide, by decide,
    whitespace_search_returns_all dfC10w ⟨"F", "Opens", "Drug Tested", "Raw", "100", sC10w⟩
      sC10w (by decide) (by decide)⟩

def recC4x : NRec :=
  ⟨"Ann", some ⟨200, 0⟩, "100", "Opens", "Opens", "Untested", "Squat", "F", "Bare",
    "RN", "Leeds"⟩

def dotS : String := "."

/-- Claim C4, counterexample: search terms are regular expressions (pandas
    str.contains defaults to regex=True), not plain substrings. The query
    consisting of a single dot matches every record with a non-empty field,
    although a dot is not a substring of any field of this record: the record
    is included while the claim's substring reading excludes it. -/
theorem search_term_regex_counterexample :
    searchFilter [recC4x] dotS = [recC4x] ∧
    pyTerms dotS = [[ '.' ]] ∧
    specTermMatch recC4x ([ '.' ]) = false := by
  refine ⟨by decide, by decide, by decide⟩

/-- Claim C4 (amended): in free-text mode the terms are regular-expression
    patterns; restricted to queries whose terms contain no regex
    metacharacter, a record is in the result exactly when every
    whitespace-delimited lower-cased term of the query is a case-insensitive
    substring of at least one of the seven searched fields (name, record
    name, weight class, base division, equipment, testing status, location). -/
theorem search_term_semantics (df : List NRec) (q : String) (r : NRec)
    (hr : r ∈ df) (hm : ∀ t ∈ pyTerms q, ∀ c ∈ t, regexMeta c = false) :
    r ∈ searchFilter df q ↔ ∀ t ∈ pyTerms q, specTermMatch r t = true := by
  have H := mem_foldl_filter (fun t x => codeTermMatch x t) (pyTerms q) df r
  constructor
  · intro h
    have h2 := (H.mp h).2
    intro t ht
    rw [← codeTermMatch_eq_spec r t (hm t ht)]
    exact h2 t ht
  · intro h
    refine H.mpr ⟨hr, ?_⟩
    intro t ht
    rw [codeTermMatch_eq_spec r t (hm t ht)]
    exact h t ht

def dfC4w : List NRec :=
  [⟨"Ann Smith", some ⟨200, 0⟩, "110", "Junior", "Junior", "Untested", "Squat", "F",
    "Bare", "RN", "Manchester Open"⟩,
   ⟨"Bob Jones", some ⟨150, 0⟩, "90", "Opens", "Opens", "Untested", "Bench", "M",
    "Bare", "RN", "York"⟩]

def qC4w : String := "110 junior Manchester"

/-- Witness for the amended claim C4: the specification's scenario query over
    a record matching on weight class, base division and location. -/
theorem search_term_semantics_witness :
    (dfC4w.head? = some
      ⟨"Ann Smith", some ⟨200, 0⟩, "110", "Junior", "Junior", "Untested", "Squat", "F",
        "Bare", "RN", "Manchester Open"⟩) ∧
    (⟨"Ann Smith", some ⟨200, 0⟩, "110", "Junior", "Junior", "Untested", "Squat", "F",
        "Bare", "RN", "Manchester Open"⟩ : NRec) ∈ dfC4w ∧
    (∀ t ∈ pyTerms qC4w, ∀ c ∈ t, regexMeta c = false) ∧
    ((⟨"Ann Smith", some ⟨200, 0⟩, "110", "Junior", "Junior", "Untested", "Squat", "F",
        "Bare", "RN", "Manchester Open"⟩ : NRec) ∈ searchFilter dfC4w qC4w ↔
      ∀ t ∈ pyTerms qC4w, specTermMatch
        ⟨"Ann Smith", some ⟨200, 0⟩, "110", "Junior", "Junior", "Untested", "Squat", "F",
          "Bare", "RN", "Manchester Open"⟩ t = true) :=
  ⟨by decide, by decide, by decide,
    search_term_semantics dfC4w qC4w _ (by decide) (by decide)⟩

-- ## Claims about the Record Reducer

theorem dLt_irrefl (a : DecNum) : dLt a a = false := by
  simp [dLt]

theorem cnLt_irrefl (x : Option DecNum) : cnLt x x = false := by
  cases x with
  | none => rfl
  | some a => exact dLt_irrefl a

theorem wgtGt_irrefl (a : NRec) : wgtGt a a = false := by
  unfold wgtGt
  cases hwa : a.weight with
  | none => rfl
  | some x => exact dLt_irrefl x

def rTie1 : NRec :=
  ⟨"First", some ⟨200, 0⟩, "100", "Opens", "Opens", "Untested", "Squat", "F", "Bare",
    "RN", "Leeds"⟩

def rTie2 : NRec :=
  ⟨"Second", some ⟨200, 0⟩, "100", "Opens", "Opens", "Untested", "Squat", "F", "Bare",
    "RN", "York"⟩

def lC2x : List NRec := [rTie1, rTie2]

/-- Claim C2, counterexample: two records tie at the maximum weight of the
    (100, Squat) group. The weight sort_values uses the default quicksort,
    which is not stable, so the weight-sorted order of the two tied rows is
    not fixed by the program: the outcome keeping the SECOND-listed record
    is admissible, while the claim's selector (first in input order at the
    maximum) names the first. The first-seen tie-break is thus not a
    guarantee of the program. -/
theorem best_per_tie_break_counterexample :
    best_per_class_and_lift lC2x [rTie2] ∧
    specFirstMax lC2x = some rTie1 ∧ rTie2 ≠ rTie1 :=
  ⟨⟨by decide, [rTie2, rTie1], ⟨by decide, by decide⟩, by decide⟩, by decide, by decide⟩

/-- Claim C2 (amended): for every numeric-weight collection, every admissible
    reducer outcome holds exactly one record for each (weight class, lift)
    pair present in the input — one of the group's maximum-weight records —
    and none for an absent pair. Which record is selected among several tied
    at the maximum weight is not fixed by the program, the weight sort being
    unstable; the observed dashboard behavior keeps the first-listed one,
    which corresponds to a stable weight sort and remains admissible. -/
theorem best_per_selects_a_max (l out : List NRec)
    (hw : ∀ r ∈ l, r.weight.isSome = true)
    (h : best_per_class_and_lift l out) (c lf : String) :
    (l.filter (fun r => decide (keyCL r = (c, lf))) = [] →
      out.filter (fun r => decide (keyCL r = (c, lf))) = []) ∧
    (l.filter (fun r => decide (keyCL r = (c, lf))) ≠ [] →
      ∃ r, out.filter (fun r => decide (keyCL r = (c, lf))) = [r] ∧
        r ∈ l.filter (fun r => decide (keyCL r = (c, lf))) ∧
        ∀ x ∈ l.filter (fun r => decide (keyCL r = (c, lf))), wgtGt x r = false) := by
  rcases h with ⟨_, w, ⟨hperm, hsort⟩, heq⟩
  have hfp : (w.filter (fun r => decide (keyCL r = (c, lf)))).Perm
      (l.filter (fun r => decide (keyCL r = (c, lf)))) := hperm.filter _
  have hgs : (w.filter (fun r => decide (keyCL r = (c, lf)))).Pairwise
      (fun a b => wle a b = true) :=
    List.Pairwise.sublist (List.filter_sublist w) hsort
  rw [heq, filter_sortBy fle _ fle_total fle_trans,
    filter_dedupBy keyCL w [] (c, lf), if_neg (List.not_mem_nil (c, lf)), List.take_one]
  cases hw2 : w.filter (fun r => decide (keyCL r = (c, lf))) with
  | nil =>
    rw [hw2] at hfp
    constructor
    · intro _
      rfl
    · intro hne
      exact absurd hfp.symm.eq_nil hne
  | cons r rest =>
    rw [hw2] at hfp hgs
    constructor
    · intro hnil
      rw [hnil] at hfp
      exact absurd hfp.eq_nil (List.cons_ne_nil r rest)
    · intro _
      have hrg : r ∈ l.filter (fun r => decide (keyCL r = (c, lf))) :=
        hfp.mem_iff.mp (List.mem_cons_self r rest)
      refine ⟨r, rfl, hrg, ?_⟩
      intro x hx
      have hxw : x ∈ r :: rest := hfp.mem_iff.mpr hx
      have hrS : r.weight.isSome = true := hw r (List.mem_filter.mp hrg).1
      have hxS : x.weight.isSome = true := hw x (List.mem_filter.mp hx).1
      rcases List.mem_cons.mp hxw with heq2 | hxr
      · rw [heq2]
        exact wgtGt_irrefl r
      · have hwle : wle r x = true := (List.pairwise_cons.mp hgs).1 x hxr
        have hnot := wle_eq_not_wgtGt r x hrS hxS
        rw [hwle] at hnot
        cases hb : wgtGt x r
        · rfl
        · rw [hb] at hnot
          cases hnot

def lC2w : List NRec :=
  [⟨"First", some ⟨200, 0⟩, "100", "Opens", "Opens", "Untested", "Squat", "F", "Bare",
    "RN", "Leeds"⟩,
   ⟨"Second", some ⟨205, 0⟩, "100", "Opens", "Opens", "Untested", "Squat", "F", "Bare",
    "RN", "York"⟩]

def outC2w : List NRec := stableReduce lC2w

/-- Witness for the amended claim C2 on the specification's scenario: two
    records in the (100, Squat) group with weights 200 and 205; the outcome
    keeps exactly one maximal record of the group. -/
theorem best_per_selects_a_max_witness :
    (∀ r ∈ lC2w, r.weight.isSome = true) ∧
    best_per_class_and_lift lC2w outC2w ∧
    ((lC2w.filter (fun r => decide (keyCL r = ("100", "Squat"))) = [] →
      outC2w.filter (fun r => decide (keyCL r = ("100", "Squat"))) = []) ∧
    (lC2w.filter (fun r => decide (keyCL r = ("100", "Squat"))) ≠ [] →
      ∃ r, outC2w.filter (fun r => decide (keyCL r = ("100", "Squat"))) = [r] ∧
        r ∈ lC2w.filter (fun r => decide (keyCL r = ("100", "Squat"))) ∧
        ∀ x ∈ lC2w.filter (fun r => decide (keyCL r = ("100", "Squat"))),
          wgtGt x r = false)) :=
  ⟨by decide, best_per_intro lC2w (by decide),
    best_per_selects_a_max lC2w outC2w (by decide) (best_per_intro lC2w (by decide))
      "100" "Squat"⟩

/-- The ordering constraint the specification imposes between two records
    appearing in this order in the reducer's output: no numerically smaller
    weight class may come later (non-numeric classes reading as plus
    infinity), two non-numeric classes are in string order, and within one
    class the canonical lift rank (unknown lifts rank 99, after Total) is
    non-decreasing. -/
def specOrderOK (a b : NRec) : Prop :=
  cnLt (parseNum b.Class) (parseNum a.Class) = false ∧
  (parseNum a.Class = none ∧ parseNum b.Class = none → strLt b.Class a.Class = false) ∧
  (a.Class = b.Class → liftIdx a.Lift ≤ liftIdx b.Lift)

theorem fle_imp_spec (a b : NRec) (h : fle a b = true) : specOrderOK a b := by
  rw [fle] at h
  by_cases c1 : cnLt (parseNum a.Class) (parseNum b.Class) = true
  · refine ⟨cnLt_asymm _ _ c1, ?_, ?_⟩
    · rintro ⟨ha, hb⟩
      rw [ha, hb] at c1
      cases c1
    · intro hcl
      rw [hcl, cnLt_irrefl] at c1
      cases c1
  · have c1f : cnLt (parseNum a.Class) (parseNum b.Class) = false :=
      Bool.eq_false_iff.mpr c1
    rw [if_neg c1] at h
    by_cases c2 : cnLt (parseNum b.Class) (parseNum a.Class) = true
    · rw [if_pos c2] at h
      cases h
    · have c2f : cnLt (parseNum b.Class) (parseNum a.Class) = false :=
        Bool.eq_false_iff.mpr c2
      rw [if_neg c2] at h
      refine ⟨c2f, ?_, ?_⟩
      · intro _
        by_cases s1 : strLt a.Class b.Class = true
        · exact nlLt_asymm _ _ s1
        · rw [if_neg s1] at h
          by_cases s2 : strLt b.Class a.Class = true
          · rw [if_pos s2] at h
            cases h
          · exact Bool.eq_false_iff.mpr s2
      · intro hcl
        by_cases s1 : strLt a.Class b.Class = true
        · rw [hcl] at s1
          unfold strLt at s1
          rw [nlLt_irrefl] at s1
          cases s1
        · rw [if_neg s1] at h
          by_cases s2 : strLt b.Class a.Class = true
          · rw [if_pos s2] at h
            cases h
          · rw [if_neg s2] at h
            exact of_decide_eq_true h

/-- Claim C5: every admissible reducer outcome is ordered by numeric weight
    class ascending, non-numeric classes after all numeric ones and in
    string order among themselves, and within one weight class by the
    canonical lift order Squat, Bench, Deadlift, Total, with unrecognized
    lifts last. -/
theorem best_per_output_ordered (l out : List NRec)
    (h : best_per_class_and_lift l out) :
    out.Pairwise specOrderOK := by
  rcases h with ⟨_, w, _, heq⟩
  rw [heq]
  refine List.Pairwise.imp ?_ (sorted_sortBy fle fle_total fle_trans _)
  intro a b hab
  exact fle_imp_spec a b hab

def lC5w : List NRec :=
  [⟨"A", some ⟨1, 0⟩, "SHW", "Opens", "Opens", "Untested", "Bench", "F", "Bare", "RN", ""⟩,
   ⟨"B", some ⟨2, 0⟩, "100", "Opens", "Opens", "Untested", "Total", "F", "Bare", "RN", ""⟩,
   ⟨"C", some ⟨3, 0⟩, "90", "Opens", "Opens", "Untested", "Deadlift", "F", "Bare", "RN", ""⟩,
   ⟨"D", some ⟨4, 0⟩, "90", "Opens", "Opens", "Untested", "Squat", "F", "Bare", "RN", ""⟩,
   ⟨"E", some ⟨5, 0⟩, "100", "Opens", "Opens", "Untested", "Odd", "F", "Bare", "RN", ""⟩]

def outC5w : List NRec := stableReduce lC5w

/-- Witness for claim C5 on a collection with numeric classes, a non-numeric
    class and an unrecognized lift. -/
theorem best_per_output_ordered_witness :
    best_per_class_and_lift lC5w outC5w ∧ outC5w.Pairwise specOrderOK :=
  ⟨best_per_intro lC5w (by decide),
    best_per_output_ordered lC5w outC5w (best_per_intro lC5w (by decide))⟩

def rLiftFoo : NRec :=
  ⟨"U", some ⟨200, 0⟩, "100", "Opens", "Opens", "Untested", "Foo", "F", "Bare", "RN", ""⟩

def rLiftBar : NRec :=
  ⟨"V", some ⟨200, 0⟩, "100", "Opens", "Opens", "Untested", "Bar", "F", "Bare", "RN", ""⟩

def outC6x : List NRec := [rLiftFoo, rLiftBar]

/-- Claim C6, counterexample: a two-record collection, same weight class,
    two unrecognized lifts (both rank 99) and equal weights, is itself an
    admissible reducer outcome of its own reduction; but re-reducing it also
    admits the outcome in swapped order, because the two records tie on the
    whole final key and on weight, and the unstable weight sort fixes no
    order between them. Same-order idempotence is thus not a guarantee of
    the program. -/
theorem best_per_order_counterexample :
    best_per_class_and_lift outC6x outC6x ∧
    best_per_class_and_lift outC6x [rLiftBar, rLiftFoo] ∧
    [rLiftBar, rLiftFoo] ≠ outC6x :=
  ⟨⟨by decide, outC6x, ⟨by decide, by decide⟩, by decide⟩,
   ⟨by decide, [rLiftBar, rLiftFoo], ⟨by decide, by decide⟩, by decide⟩,
   by decide⟩

/-- Claim C6 (amended): reducing an already-reduced collection yields the
    same records — every admissible re-reduction is a permutation of the
    collection — and the collection itself, unchanged, is always among the
    admissible outcomes; only the relative order of records tying on all of
    weight, numeric class, class string and lift rank is left open by the
    unstable weight sort. -/
theorem best_per_idempotent_upto (l out out2 : List NRec)
    (h : best_per_class_and_lift l out) (h2 : best_per_class_and_lift out out2) :
    out2.Perm out ∧ best_per_class_and_lift out out := by
  rcases h with ⟨hg, w, ⟨hperm, hsort⟩, heq⟩
  have hsub : ∀ r ∈ out, r ∈ l := by
    intro r hr
    rw [heq] at hr
    have h1 := (mem_sortBy fle _ r).mp hr
    have h2' := mem_dedupBy keyCL _ [] r h1
    exact hperm.mem_iff.mp h2'
  have hg2 : (out.all (fun r => r.weight.isSome) ||
      out.all (fun r => r.weight.isNone)) = true := by
    rw [Bool.or_eq_true] at hg ⊢
    rcases hg with hcase | hcase
    · left
      rw [List.all_eq_true] at hcase ⊢
      intro r hr
      exact hcase r (hsub r hr)
    · right
      rw [List.all_eq_true] at hcase ⊢
      intro r hr
      exact hcase r (hsub r hr)
  have hkeys : out.Pairwise (fun a b => keyCL a ≠ keyCL b) := by
    rw [heq]
    refine (List.Perm.pairwise_iff ?_ (perm_sortBy fle _)).mpr
      (pairwise_dedupBy keyCL w [])
    intro x y hxy
    exact fun hc => hxy hc.symm
  have hpart2 : out2.Perm out := by
    rcases h2 with ⟨_, w2, ⟨hp2, _⟩, heq2⟩
    have hk2 : w2.Pairwise (fun a b => keyCL a ≠ keyCL b) := by
      refine (List.Perm.pairwise_iff ?_ hp2).mpr hkeys
      intro x y hxy
      exact fun hc => hxy hc.symm
    have hded2 : dedupBy keyCL w2 [] = w2 :=
      dedupBy_eq_self keyCL w2 [] hk2 (fun x _ hc => List.not_mem_nil (keyCL x) hc)
    rw [heq2, hded2]
    exact (perm_sortBy fle w2).trans hp2
  have hDw : (dedupBy keyCL w []).Pairwise (fun a b => wle a b = true) :=
    List.Pairwise.sublist (dedupBy_sublist keyCL w []) hsort
  have hT : out.Pairwise
      (fun x y => fle x y = true ∧ (fle y x = true → wle x y = true)) := by
    rw [heq]
    exact pairwise_tie_sortBy fle wle fle_total fle_trans _ hDw
  have hRp : out.Pairwise (fun a x =>
      fle x a = false ∨ (fle a x = true ∧ fle x a = true ∧ wle a x = true)) := by
    refine List.Pairwise.imp ?_ hT
    intro a x hax
    cases hv : fle x a
    · exact Or.inl rfl
    · exact Or.inr ⟨hax.1, rfl, hax.2 hv⟩
  have hwkeys : (sortBy wle out).Pairwise (fun a b => keyCL a ≠ keyCL b) := by
    refine (List.Perm.pairwise_iff ?_ (perm_sortBy wle out)).mpr hkeys
    intro x y hxy
    exact fun hc => hxy hc.symm
  have hded : dedupBy keyCL (sortBy wle out) [] = sortBy wle out :=
    dedupBy_eq_self keyCL (sortBy wle out) [] hwkeys
      (fun x _ hc => List.not_mem_nil (keyCL x) hc)
  have htwo : sortBy fle (sortBy wle out) = out :=
    sortBy_sortBy_of_pairwise wle fle fle_total out hRp
  refine ⟨hpart2, hg2, sortBy wle out,
    ⟨perm_sortBy wle out, sorted_sortBy wle wle_total wle_trans out⟩, ?_⟩
  rw [hded, htwo]

def lC6w : List NRec :=
  [⟨"P", some ⟨180, 0⟩, "90", "Opens", "Opens", "Untested", "Squat", "F", "Bare", "RN", ""⟩,
   ⟨"Q", some ⟨170, 0⟩, "90", "Opens", "Opens", "Untested", "Squat", "M", "Bare", "RN", ""⟩,
   ⟨"R", some ⟨120, 0⟩, "82.5", "Opens", "Opens", "Untested", "Bench", "F", "Bare", "RN", ""⟩]

def outC6w : List NRec := stableReduce lC6w

def outC6w2 : List NRec := stableReduce outC6w

/-- Witness for the amended claim C6 at a concrete input with a duplicated
    group. -/
theorem best_per_idempotent_upto_witness :
    best_per_class_and_lift lC6w outC6w ∧
    best_per_class_and_lift outC6w outC6w2 ∧
    (outC6w2.Perm outC6w ∧ best_per_class_and_lift outC6w outC6w) :=
  ⟨best_per_intro lC6w (by decide), best_per_intro outC6w (by decide),
    best_per_idempotent_upto lC6w outC6w outC6w2 (best_per_intro lC6w (by decide))
      (best_per_intro outC6w (by decide))⟩
